import Mathlib

/-!
Verification of the `lftes` lock-free event-sequencing ring buffer.

The Rust sources (`slot.rs`, `buffer.rs`, `producer.rs`, `sequencer.rs`,
`consumer.rs`, `error.rs`) are shallowly embedded below:

* pure construction and validation code becomes Lean functions;
* each thread's loop body becomes a fuel-indexed function that also returns
  the list of externally visible actions it performed, in program order;
* the concurrent system is a step relation on the buffer state whose atomic
  events are exactly the atomic stores / CAS operations of the source, with
  the guards the source establishes for them;
* machine integers (`u8`, `u64`, `usize`) are modelled as `Nat`; every
  counter in the source (`head`, `next_seq`, `scan_pos`, `cursor`) is
  advanced at most once per slot and slots number at most `2 ^ 30`, so
  64-bit wrap-around is unreachable and is not modelled;
* `MaybeUninit<T>` becomes `Option T` (`none` = uninitialised).
-/

namespace Lftes

/-- Slot lifecycle states, mirroring `SlotState` in `slot.rs`
(`repr(u8)`: Free = 0, Claimed = 1, Published = 2, Sequenced = 3). -/
inductive SlotState where
  | Free
  | Claimed
  | Published
  | Sequenced
deriving DecidableEq, Repr

/-- The `u8` discriminant of a state (`SlotState as u8` in the source). -/
def SlotState.toU8 : SlotState → Nat
  | .Free => 0
  | .Claimed => 1
  | .Published => 2
  | .Sequenced => 3

/-- Rank of a state along the one-way lifecycle
Free → Claimed → Published → Sequenced; numerically the `u8` discriminant. -/
abbrev SlotState.rank (s : SlotState) : Nat := s.toU8

/-- One ring-buffer cell, mirroring `Slot<T>` in `slot.rs`.  Atomics are
modelled by their contained values (the interleaving of atomic accesses is
captured by the step relations below); the `MaybeUninit<T>` payload is
`Option T`; the padding field `_pad1` and the 64-byte alignment attribute
have no functional content and are omitted. -/
structure Slot (T : Type) where
  state : SlotState
  producer_id : Nat
  sequence : Nat
  timestamp : Nat
  payload : Option T
deriving DecidableEq

/-- `Slot::new` in `slot.rs`: state Free, zeroed metadata, uninitialised
payload. -/
def Slot.new (T : Type) : Slot T :=
  { state := SlotState.Free, producer_id := 0, sequence := 0, timestamp := 0,
    payload := none }

/-- `BuildError` in `error.rs`. -/
inductive BuildError where
  | InvalidCapacity
  | TooLarge
deriving DecidableEq, Repr

/-- `PushError` in `error.rs`. -/
inductive PushError where
  | BufferFull
  | Shutdown
deriving DecidableEq, Repr

/-- `MAX_CAPACITY` in `buffer.rs` (`1 << 30`). -/
def MAX_CAPACITY : Nat := 2 ^ 30

/-- Rust's `usize::is_power_of_two` (`count_ones() == 1`), written with the
standard single-bit test `n != 0 && n & (n - 1) == 0`, which is proved below
(`is_power_of_two_iff`) to hold exactly for the powers of two. -/
def is_power_of_two (n : Nat) : Bool :=
  n != 0 && (n &&& (n - 1)) == 0

/-- The ring buffer, mirroring `Buffer<T>` in `buffer.rs`.  The boxed slice
of slots is a list; `head` (`AtomicUsize`) and `tail` (`AtomicU64`) are their
contained values. -/
structure Buffer (T : Type) where
  slots : List (Slot T)
  capacity : Nat
  mask : Nat
  head : Nat
  tail : Nat

/-- `Buffer::new` in `buffer.rs` lines 33-51: reject non-powers of two, then
reject capacities above `MAX_CAPACITY`, else build `capacity` Free slots with
`mask = capacity - 1`, `head = 0`, `tail = 0`. -/
def Buffer.new (T : Type) (capacity : Nat) : Except BuildError (Buffer T) :=
  if !(is_power_of_two capacity) then
    Except.error BuildError.InvalidCapacity
  else if capacity > MAX_CAPACITY then
    Except.error BuildError.TooLarge
  else
    Except.ok
      { slots := List.replicate capacity (Slot.new T), capacity := capacity,
        mask := capacity - 1, head := 0, tail := 0 }

/-- `BufferBuilder<T>` in `buffer.rs` (just the optional capacity; the
phantom marker has no content). -/
structure BufferBuilder where
  capacity : Option Nat

/-- `BufferBuilder::new`. -/
def BufferBuilder.new : BufferBuilder := { capacity := none }

/-- `BufferBuilder::capacity` (named `setCapacity` here because the field
already carries the source name). -/
def BufferBuilder.setCapacity (b : BufferBuilder) (c : Nat) : BufferBuilder :=
  { b with capacity := some c }

/-- `BufferBuilder::build` in `buffer.rs` lines 99-103:
`self.capacity.unwrap_or(1024)` then `Buffer::new`. -/
def BufferBuilder.build (T : Type) (b : BufferBuilder) :
    Except BuildError (Buffer T) :=
  Buffer.new T (b.capacity.getD 1024)

/-- The slot at index `i` (`self.buffer.slots[idx]` in the source; the
source indexes are always in bounds, the default is never read on
well-formed buffers). -/
def Buffer.slotAt (T : Type) (buf : Buffer T) (i : Nat) : Slot T :=
  buf.slots.getD i (Slot.new T)

/-- Replace the slot at index `i`. -/
def Buffer.setSlot (T : Type) (buf : Buffer T) (i : Nat) (s : Slot T) :
    Buffer T :=
  { buf with slots := buf.slots.set i s }

/-- The event record handed to a consumer (`Event<T>` in `consumer.rs`). -/
structure Event (T : Type) where
  sequence : Nat
  timestamp : Nat
  producer_id : Nat
  payload : T
deriving DecidableEq

/-- A consumer handle: its private cursor (`Consumer<T>` in `consumer.rs`;
the `Arc<Buffer<T>>` it holds is passed explicitly). -/
structure Consumer where
  cursor : Nat
deriving DecidableEq

/-- `Consumer::new`. -/
def Consumer.new : Consumer := { cursor := 0 }

/-- `Consumer::try_next` in `consumer.rs` lines 19-51.  The cast
`self.cursor as usize` is the identity on the 64-bit targets the source
addresses.  The source's `assume_init_read` of the payload is modelled by
`Option.getD`; the source only reaches it in state Sequenced, where the
payload has been written. -/
def Consumer.try_next (T : Type) [Inhabited T] (buf : Buffer T)
    (c : Consumer) : Option (Event T) × Consumer :=
  let slot_idx := c.cursor &&& buf.mask
  let slot := buf.slotAt T slot_idx
  if slot.state ≠ SlotState.Sequenced then
    (none, c)
  else if slot.sequence ≠ c.cursor then
    (none, c)
  else
    (some { sequence := slot.sequence, timestamp := slot.timestamp,
            producer_id := slot.producer_id,
            payload := slot.payload.getD default },
     { cursor := c.cursor + 1 })

/-- Repeated `try_next` until the first `None`, collecting the events: one
consumer draining a quiescent buffer (`fuel` bounds the number of calls). -/
def consumeRun (T : Type) [Inhabited T] (buf : Buffer T) :
    Consumer → Nat → List (Event T)
  | _, 0 => []
  | c, fuel + 1 =>
    match Consumer.try_next T buf c with
    | (none, _) => []
    | (some e, c') => e :: consumeRun T buf c' fuel

/-- The event record stored in slot `i`, as `try_next` would assemble it. -/
def eventOf (T : Type) [Inhabited T] (buf : Buffer T) (i : Nat) : Event T :=
  { sequence := (buf.slotAt T i).sequence,
    timestamp := (buf.slotAt T i).timestamp,
    producer_id := (buf.slotAt T i).producer_id,
    payload := (buf.slotAt T i).payload.getD default }

/-- `MAX_SPIN` in `producer.rs` line 43. -/
def MAX_SPIN : Nat := 10000

/-- One action of `Producer::push` / `Producer::claim`, recorded in the
producer's own program order:

* `casFailed i` — a losing / spurious `compare_exchange_weak` on `state[i]`;
* `claimed i` — the winning CAS Free → Claimed (`producer.rs` line 54);
* `headAdvanced` — `head.fetch_add(1)` (`producer.rs` line 62);
* `wrotePayload i` — the payload / timestamp / producer_id writes
  (`producer.rs` lines 27-29);
* `storedPublished i` — the release store of Published (line 36);
* `spun` / `yielded` — `spin_loop` / `yield_now`. -/
inductive PAct where
  | casFailed (i : Nat)
  | claimed (i : Nat)
  | headAdvanced
  | wrotePayload (i : Nat)
  | storedPublished (i : Nat)
  | spun
  | yielded
deriving DecidableEq, Repr

/-- `Producer::claim` in `producer.rs` lines 41-80, as one producer thread
sees it.  `fuel` bounds the number of loop iterations (the source loop is
unbounded; running out of fuel returns `none`, "still spinning").  `casOk`
is an oracle deciding whether this iteration's `compare_exchange_weak`
succeeds (it may fail spuriously or to a racing producer).  The buffer is
this thread's view; no interference other than CAS failure is modelled
inside the loop. -/
def Producer.claim (T : Type) (buf : Buffer T) (casOk : Nat → Bool) :
    Nat → Nat → List PAct × Option (Nat × Buffer T)
  | _, 0 => ([], none)
  | attempts, fuel + 1 =>
    let pos := buf.head
    let slot_idx := pos &&& buf.mask
    let slot := buf.slotAt T slot_idx
    if slot.state = SlotState.Free then
      if casOk fuel then
        ([PAct.claimed slot_idx, PAct.headAdvanced],
         some (slot_idx,
           { buf with
               slots := buf.slots.set slot_idx
                 { slot with state := SlotState.Claimed },
               head := buf.head + 1 }))
      else
        let r := Producer.claim T buf casOk attempts fuel
        (PAct.casFailed slot_idx :: PAct.spun :: r.1, r.2)
    else
      if attempts + 1 > MAX_SPIN then
        let r := Producer.claim T buf casOk 0 fuel
        (PAct.yielded :: PAct.spun :: r.1, r.2)
      else
        let r := Producer.claim T buf casOk (attempts + 1) fuel
        (PAct.spun :: r.1, r.2)

/-- `Producer::push` in `producer.rs` lines 20-39: claim a slot, write
payload / timestamp / producer_id, store Published.  `ts` is the opaque
`timestamp()` reading and `id` the producer's id. -/
def Producer.push (T : Type) (buf : Buffer T) (casOk : Nat → Bool)
    (fuel : Nat) (event : T) (ts : Nat) (id : Nat) :
    List PAct × Option (Except PushError Unit × Buffer T) :=
  match Producer.claim T buf casOk 0 fuel with
  | (tr, none) => (tr, none)
  | (tr, some (i, buf1)) =>
    (tr ++ [PAct.wrotePayload i, PAct.storedPublished i],
     some (Except.ok (),
       (buf1.setSlot T i
          { buf1.slotAt T i with payload := some event, timestamp := ts,
                                 producer_id := id }).setSlot T i
         { (buf1.setSlot T i
              { buf1.slotAt T i with payload := some event, timestamp := ts,
                                     producer_id := id }).slotAt T i
             with state := SlotState.Published }))

/-- One atomic memory event a producer thread performs on the shared buffer,
with the guard the source establishes for it:

* `claimCAS` — a successful `compare_exchange_weak` Free → Claimed;
* `headAdd` — the `fetch_add` on `head` issued right after a winning CAS
  (the relation admits it at any time: an over-approximation of scheduling);
* `write` — the claimer's payload / timestamp / producer_id writes, only ever
  issued while the slot it claimed is still Claimed;
* `publish` — the claimer's release store of Published.

Failed CAS attempts and pure loads leave memory unchanged and are omitted. -/
inductive ProdStep (T : Type) : Buffer T → Buffer T → Prop where
  | claimCAS (buf : Buffer T) (i : Nat) :
      (buf.slotAt T i).state = SlotState.Free →
      ProdStep T buf
        (buf.setSlot T i { buf.slotAt T i with state := SlotState.Claimed })
  | headAdd (buf : Buffer T) :
      ProdStep T buf { buf with head := buf.head + 1 }
  | write (buf : Buffer T) (i : Nat) (v : T) (ts pid : Nat) :
      (buf.slotAt T i).state = SlotState.Claimed →
      ProdStep T buf
        (buf.setSlot T i
          { buf.slotAt T i with payload := some v, timestamp := ts,
                                producer_id := pid })
  | publish (buf : Buffer T) (i : Nat) :
      (buf.slotAt T i).state = SlotState.Claimed →
      ProdStep T buf
        (buf.setSlot T i { buf.slotAt T i with state := SlotState.Published })

/-- One atomic memory event of the whole system: a producer event, or one of
the two stores of the sequencer's promotion (`sequencer.rs` lines 64-69),
each guarded by the Published state the sequencer observed. -/
inductive SysStep (T : Type) : Buffer T → Buffer T → Prop where
  | ofProd (buf buf' : Buffer T) :
      ProdStep T buf buf' → SysStep T buf buf'
  | seqStoreSeq (buf : Buffer T) (i n : Nat) :
      (buf.slotAt T i).state = SlotState.Published →
      SysStep T buf (buf.setSlot T i { buf.slotAt T i with sequence := n })
  | seqStoreState (buf : Buffer T) (i : Nat) :
      (buf.slotAt T i).state = SlotState.Published →
      SysStep T buf
        (buf.setSlot T i { buf.slotAt T i with state := SlotState.Sequenced })

/-- Any interleaving of the system's atomic events. -/
def SysSteps (T : Type) : Buffer T → Buffer T → Prop :=
  Relation.ReflTransGen (SysStep T)

/-- One externally visible store of the sequencer. -/
inductive SAct where
  | storedSequence (i n : Nat)
  | storedState (i : Nat)
deriving DecidableEq, Repr

/-- The sequencer thread's private state (`sequencer_loop` locals
`next_seq`, `scan_pos`) together with its view of the buffer. -/
structure SeqState (T : Type) where
  buf : Buffer T
  next_seq : Nat
  scan_pos : Nat

/-- One iteration of the body of `sequencer_loop` (`sequencer.rs`
lines 55-82): on Published, store `sequence = next_seq` (release) and then
store Sequenced (release), incrementing `next_seq` and `scan_pos`; on Free,
Claimed or Sequenced, spin in place without advancing.  The returned list
records the stores in the order the source issues them. -/
def seqStep (T : Type) (s : SeqState T) : List SAct × SeqState T :=
  let slot_idx := s.scan_pos &&& s.buf.mask
  let slot := s.buf.slotAt T slot_idx
  if slot.state = SlotState.Published then
    let buf1 := s.buf.setSlot T slot_idx { slot with sequence := s.next_seq }
    let slot1 := buf1.slotAt T slot_idx
    let buf2 := buf1.setSlot T slot_idx
      { slot1 with state := SlotState.Sequenced }
    ([SAct.storedSequence slot_idx s.next_seq, SAct.storedState slot_idx],
     { buf := buf2, next_seq := s.next_seq + 1, scan_pos := s.scan_pos + 1 })
  else
    ([], s)

/-- Interleaved executions of the single sequencer thread with any number of
producer actions, accumulating the sequencer's stores.  `prod` is an
environment step by some producer; `seq` runs one iteration of the
sequencer's loop body. -/
inductive SeqReach (T : Type) : SeqState T → List SAct → SeqState T → Prop
  | refl (s : SeqState T) : SeqReach T s [] s
  | prod (s : SeqState T) (tr : List SAct) (s' : SeqState T)
      (buf'' : Buffer T) :
      SeqReach T s tr s' → ProdStep T s'.buf buf'' →
      SeqReach T s tr { s' with buf := buf'' }
  | seq (s : SeqState T) (tr : List SAct) (s' : SeqState T) :
      SeqReach T s tr s' →
      SeqReach T s (tr ++ (seqStep T s').1) (seqStep T s').2

/-- Shape facts `Buffer::new` establishes: the slot array has length
`capacity`, the mask is `capacity - 1`, and the capacity is a power of
two. -/
structure BufWF (T : Type) (buf : Buffer T) : Prop where
  len : buf.slots.length = buf.capacity
  mask_eq : buf.mask = buf.capacity - 1
  pow : ∃ k, buf.capacity = 2 ^ k

/-- The sequencer's loop invariant: its private counters agree, everything
below `scan_pos` is Sequenced and carries its own index as sequence number,
nothing at or above `scan_pos` is Sequenced. -/
structure SeqInv (T : Type) (s : SeqState T) : Prop where
  wf : BufWF T s.buf
  seq_eq : s.next_seq = s.scan_pos
  scan_le : s.scan_pos ≤ s.buf.capacity
  below : ∀ i, i < s.scan_pos →
    (s.buf.slotAt T i).state = SlotState.Sequenced ∧
    (s.buf.slotAt T i).sequence = i
  above : ∀ i, s.scan_pos ≤ i → i < s.buf.capacity →
    (s.buf.slotAt T i).state ≠ SlotState.Sequenced


/-- A one-slot buffer exactly as `Buffer::new 1` builds it (a concrete test
state for the theorems below). -/
def bufA : Buffer Nat :=
  { slots := [Slot.new Nat], capacity := 1, mask := 0, head := 0, tail := 0 }

/-- `bufA` after one successful push of payload 42 at timestamp 7. -/
def bufA_pushed : Buffer Nat :=
  { slots := [{ state := SlotState.Published, producer_id := 0, sequence := 0,
                timestamp := 7, payload := some 42 }],
    capacity := 1, mask := 0, head := 1, tail := 0 }

/-- A one-slot buffer whose slot is Published, awaiting the sequencer. -/
def bufP : Buffer Nat :=
  { slots := [{ state := SlotState.Published, producer_id := 0, sequence := 0,
                timestamp := 7, payload := some 42 }],
    capacity := 1, mask := 0, head := 1, tail := 0 }

/-- A one-slot buffer whose slot has been Sequenced with sequence 0. -/
def bufS : Buffer Nat :=
  { slots := [{ state := SlotState.Sequenced, producer_id := 0, sequence := 0,
                timestamp := 7, payload := some 42 }],
    capacity := 1, mask := 0, head := 1, tail := 0 }


/-! ### Basic facts about the embedding -/

theorem getD_replicate {α : Type} (n i : Nat) (a : α) :
    (List.replicate n a).getD i a = a := by
  rcases Nat.lt_or_ge i n with h | h
  · simp [List.getD, List.getElem?_replicate, h]
  · simp [List.getD, List.getElem?_replicate, Nat.not_lt.2 h]

theorem pow_and_pred (k : Nat) : (2 ^ k) &&& (2 ^ k - 1) = 0 := by
  rw [Nat.and_pow_two_sub_one_eq_mod]
  exact Nat.mod_self _

/-- The single-bit test used by `is_power_of_two` holds exactly for the
powers of two (Rust documents `is_power_of_two` as `count_ones() == 1`). -/
theorem is_power_of_two_iff (n : Nat) :
    is_power_of_two n = true ↔ ∃ k, n = 2 ^ k := by
  constructor
  · intro h
    simp only [is_power_of_two, Bool.and_eq_true, bne_iff_ne, ne_eq,
      beq_iff_eq] at h
    obtain ⟨hn, hand⟩ := h
    refine ⟨Nat.log 2 n, ?_⟩
    have hle : 2 ^ Nat.log 2 n ≤ n := Nat.pow_log_le_self 2 hn
    have hlt : n < 2 ^ (Nat.log 2 n + 1) := Nat.lt_pow_succ_log_self (by decide) n
    by_contra hne
    have hgt : 2 ^ Nat.log 2 n < n := lt_of_le_of_ne hle (fun e => hne e.symm)
    rw [Nat.pow_succ] at hlt
    have hdiv1 : n / 2 ^ Nat.log 2 n = 1 :=
      Nat.div_eq_of_lt_le (by omega) (by omega)
    have hdiv2 : (n - 1) / 2 ^ Nat.log 2 n = 1 :=
      Nat.div_eq_of_lt_le (by omega) (by omega)
    have hb1 : n.testBit (Nat.log 2 n) = true := by
      rw [Nat.testBit_to_div_mod, hdiv1]
      decide
    have hb2 : (n - 1).testBit (Nat.log 2 n) = true := by
      rw [Nat.testBit_to_div_mod, hdiv2]
      decide
    have hb : (n &&& (n - 1)).testBit (Nat.log 2 n) = true := by
      rw [Nat.testBit_and, hb1, hb2]
      rfl
    rw [hand, Nat.zero_testBit] at hb
    exact Bool.false_ne_true hb
  · rintro ⟨k, rfl⟩
    have hpos : 0 < 2 ^ k := Nat.pos_pow_of_pos k (by decide)
    simp [is_power_of_two, pow_and_pred, Nat.pos_iff_ne_zero.mp hpos]

theorem Buffer.new_eq_invalid (T : Type) (cap : Nat)
    (h : is_power_of_two cap = false) :
    Buffer.new T cap = Except.error BuildError.InvalidCapacity := by
  simp [Buffer.new, h]

theorem Buffer.new_eq_tooLarge (T : Type) (cap : Nat)
    (h1 : is_power_of_two cap = true) (h2 : MAX_CAPACITY < cap) :
    Buffer.new T cap = Except.error BuildError.TooLarge := by
  simp [Buffer.new, h1, h2]

theorem Buffer.new_eq_ok (T : Type) (cap : Nat)
    (h1 : is_power_of_two cap = true) (h2 : cap ≤ MAX_CAPACITY) :
    Buffer.new T cap = Except.ok
      { slots := List.replicate cap (Slot.new T), capacity := cap,
        mask := cap - 1, head := 0, tail := 0 } := by
  simp [Buffer.new, h1, Nat.not_lt.2 h2]

/-- Inversion of a successful `Buffer::new`. -/
theorem Buffer.new_ok_inv (T : Type) (cap : Nat) (buf : Buffer T)
    (h : Buffer.new T cap = Except.ok buf) :
    is_power_of_two cap = true ∧ cap ≤ MAX_CAPACITY ∧
    buf.slots = List.replicate cap (Slot.new T) ∧ buf.capacity = cap ∧
    buf.mask = cap - 1 ∧ buf.head = 0 ∧ buf.tail = 0 := by
  by_cases h1 : is_power_of_two cap
  · by_cases h2 : cap ≤ MAX_CAPACITY
    · rw [Buffer.new_eq_ok T cap h1 h2] at h
      cases h
      exact ⟨h1, h2, rfl, rfl, rfl, rfl, rfl⟩
    · rw [Buffer.new_eq_tooLarge T cap h1 (Nat.lt_of_not_le h2)] at h
      cases h
  · rw [Buffer.new_eq_invalid T cap (Bool.of_not_eq_true h1)] at h
    cases h

theorem slotAt_setSlot_self (T : Type) (buf : Buffer T) (i : Nat) (s : Slot T)
    (h : i < buf.slots.length) :
    (buf.setSlot T i s).slotAt T i = s := by
  simp [Buffer.slotAt, Buffer.setSlot, List.getD, List.getElem?_set_self', h]

theorem slotAt_setSlot_ne (T : Type) (buf : Buffer T) (i j : Nat) (s : Slot T)
    (h : i ≠ j) :
    (buf.setSlot T i s).slotAt T j = buf.slotAt T j := by
  simp [Buffer.slotAt, Buffer.setSlot, List.getD, List.getElem?_set_ne h]

theorem setSlot_out_of_range (T : Type) (buf : Buffer T) (i : Nat) (s : Slot T)
    (h : buf.slots.length ≤ i) :
    buf.setSlot T i s = buf := by
  simp [Buffer.setSlot, List.set_eq_of_length_le h]

theorem setSlot_length (T : Type) (buf : Buffer T) (i : Nat) (s : Slot T) :
    (buf.setSlot T i s).slots.length = buf.slots.length := by
  simp [Buffer.setSlot]

/-! ### Preservation facts for the step relations -/

theorem ProdStep.prod_fields_eq {T : Type} {b b' : Buffer T} (h : ProdStep T b b') :
    b'.capacity = b.capacity ∧ b'.mask = b.mask ∧ b'.tail = b.tail ∧
    b'.slots.length = b.slots.length := by
  cases h <;> simp [Buffer.setSlot]

theorem SysStep.sys_fields_eq {T : Type} {b b' : Buffer T} (h : SysStep T b b') :
    b'.capacity = b.capacity ∧ b'.mask = b.mask ∧ b'.tail = b.tail ∧
    b'.slots.length = b.slots.length := by
  cases h with
  | ofProd => rename_i hp; exact hp.prod_fields_eq
  | seqStoreSeq => simp [Buffer.setSlot]
  | seqStoreState => simp [Buffer.setSlot]

theorem ProdStep.prod_head_mono {T : Type} {b b' : Buffer T} (h : ProdStep T b b') :
    b.head ≤ b'.head := by
  cases h <;> simp [Buffer.setSlot]

theorem SysStep.sys_head_mono {T : Type} {b b' : Buffer T} (h : SysStep T b b') :
    b.head ≤ b'.head := by
  cases h with
  | ofProd => rename_i hp; exact hp.prod_head_mono
  | seqStoreSeq => simp [Buffer.setSlot]
  | seqStoreState => simp [Buffer.setSlot]

theorem rank_mono_setSlot {T : Type} (b : Buffer T) (j : Nat) (s : Slot T)
    (hr : ((b.slotAt T j).state).rank ≤ s.state.rank) (i : Nat) :
    ((b.slotAt T i).state).rank ≤ (((b.setSlot T j s).slotAt T i).state).rank := by
  by_cases hij : j = i
  · subst hij
    by_cases hl : j < b.slots.length
    · rw [slotAt_setSlot_self T b j s hl]
      exact hr
    · rw [setSlot_out_of_range T b j s (Nat.le_of_not_lt hl)]
  · rw [slotAt_setSlot_ne T b j i s hij]

theorem SysStep.sys_rank_mono {T : Type} {b b' : Buffer T} (h : SysStep T b b')
    (i : Nat) :
    ((b.slotAt T i).state).rank ≤ ((b'.slotAt T i).state).rank := by
  cases h with
  | ofProd =>
    rename_i hp
    cases hp with
    | claimCAS j hj =>
      exact rank_mono_setSlot b j _ (by simp [hj, SlotState.rank, SlotState.toU8]) i
    | headAdd => exact Nat.le_refl _
    | write j v ts pid hj =>
      exact rank_mono_setSlot b j _ (by simp) i
    | publish j hj =>
      exact rank_mono_setSlot b j _ (by simp [hj, SlotState.rank, SlotState.toU8]) i
  | seqStoreSeq j n hj =>
    exact rank_mono_setSlot b j _ (by simp) i
  | seqStoreState j hj =>
    exact rank_mono_setSlot b j _ (by simp [hj, SlotState.rank, SlotState.toU8]) i

theorem SysSteps.steps_rank_mono {T : Type} {b b' : Buffer T} (h : SysSteps T b b')
    (i : Nat) :
    ((b.slotAt T i).state).rank ≤ ((b'.slotAt T i).state).rank := by
  induction h with
  | refl => exact Nat.le_refl _
  | tail _ hstep ih => exact Nat.le_trans ih (hstep.sys_rank_mono i)

/-- From a buffer whose in-range slots are all Sequenced, no step changes
any slot. -/
theorem SysStep.sys_frozen {T : Type} {b b' : Buffer T} (h : SysStep T b b')
    (hlen : b.slots.length = b.capacity)
    (hall : ∀ i, i < b.capacity → (b.slotAt T i).state = SlotState.Sequenced) :
    b'.slots = b.slots := by
  have noSlot : ∀ (j : Nat) (s : Slot T), (b.slotAt T j).state ≠ SlotState.Sequenced →
      (b.setSlot T j s).slots = b.slots := by
    intro j s hj
    by_cases hl : j < b.slots.length
    · exact absurd (hall j (hlen ▸ hl)) hj
    · rw [setSlot_out_of_range T b j s (Nat.le_of_not_lt hl)]
  cases h with
  | ofProd =>
    rename_i hp
    cases hp with
    | claimCAS j hj => exact noSlot j _ (by simp [hj])
    | headAdd => rfl
    | write j v ts pid hj => exact noSlot j _ (by simp [hj])
    | publish j hj => exact noSlot j _ (by simp [hj])
  | seqStoreSeq j n hj => exact noSlot j _ (by simp [hj])
  | seqStoreState j hj => exact noSlot j _ (by simp [hj])

theorem SysSteps.steps_frozen {T : Type} {b b' : Buffer T} (h : SysSteps T b b')
    (hlen : b.slots.length = b.capacity)
    (hall : ∀ i, i < b.capacity → (b.slotAt T i).state = SlotState.Sequenced) :
    b'.slots = b.slots := by
  induction h with
  | refl => rfl
  | tail hsteps hstep ih =>
    rename_i bmid bend
    have hcap : bmid.capacity = b.capacity := by
      clear ih hstep
      induction hsteps with
      | refl => rfl
      | tail _ hs ih2 => rw [hs.sys_fields_eq.1, ih2]
    have hlen2 : bmid.slots.length = bmid.capacity := by
      rw [ih, hlen, hcap]
    have hall2 : ∀ i, i < bmid.capacity → (bmid.slotAt T i).state = SlotState.Sequenced := by
      intro i hi
      have : bmid.slotAt T i = b.slotAt T i := by
        simp [Buffer.slotAt, ih]
      rw [this]
      exact hall i (hcap ▸ hi)
    rw [hstep.sys_frozen hlen2 hall2, ih]

/-! ### Well-formedness and the sequencer invariant -/


theorem BufWF.cap_pos {T : Type} {buf : Buffer T} (h : BufWF T buf) :
    0 < buf.capacity := by
  obtain ⟨k, hk⟩ := h.pow
  rw [hk]
  exact Nat.pos_pow_of_pos k (by decide)

theorem BufWF.mask_and {T : Type} {buf : Buffer T} (h : BufWF T buf)
    (x : Nat) : x &&& buf.mask = x % buf.capacity := by
  obtain ⟨k, hk⟩ := h.pow
  rw [h.mask_eq, hk, Nat.and_pow_two_sub_one_eq_mod]

theorem BufWF.mask_and_lt {T : Type} {buf : Buffer T} (h : BufWF T buf)
    {x : Nat} (hx : x < buf.capacity) : x &&& buf.mask = x := by
  rw [h.mask_and x]
  exact Nat.mod_eq_of_lt hx

theorem BufWF.mask_and_cap {T : Type} {buf : Buffer T} (h : BufWF T buf) :
    buf.capacity &&& buf.mask = 0 := by
  rw [h.mask_and]
  exact Nat.mod_self _

theorem Buffer.new_wf (T : Type) (cap : Nat) (buf : Buffer T)
    (h : Buffer.new T cap = Except.ok buf) : BufWF T buf := by
  obtain ⟨h1, _, hs, hc, hm, _, _⟩ := Buffer.new_ok_inv T cap buf h
  exact ⟨by rw [hs, hc, List.length_replicate], by rw [hm, hc],
         hc ▸ (is_power_of_two_iff cap).mp h1⟩

theorem ProdStep.wf {T : Type} {b b' : Buffer T} (hp : ProdStep T b b')
    (h : BufWF T b) : BufWF T b' := by
  obtain ⟨hc, hm, _, hl⟩ := hp.prod_fields_eq
  exact ⟨by rw [hl, hc, h.len], by rw [hm, hc, h.mask_eq], hc ▸ h.pow⟩

theorem setSlot_capacity (T : Type) (buf : Buffer T) (i : Nat) (s : Slot T) :
    (buf.setSlot T i s).capacity = buf.capacity := rfl

theorem setSlot_mask (T : Type) (buf : Buffer T) (i : Nat) (s : Slot T) :
    (buf.setSlot T i s).mask = buf.mask := rfl

theorem setSlot_wf {T : Type} {buf : Buffer T} (h : BufWF T buf) (i : Nat)
    (s : Slot T) : BufWF T (buf.setSlot T i s) := by
  refine ⟨?_, ?_, ?_⟩
  · rw [setSlot_length, setSlot_capacity]
    exact h.len
  · rw [setSlot_mask, setSlot_capacity]
    exact h.mask_eq
  · rw [setSlot_capacity]
    exact h.pow

/-- Either the written index is hit (in range) or the slot read is
unchanged. -/
theorem slotAt_setSlot_cases (T : Type) (buf : Buffer T) (j : Nat)
    (s : Slot T) (i : Nat) :
    ((buf.setSlot T j s).slotAt T i = s ∧ i = j ∧ j < buf.slots.length) ∨
    (buf.setSlot T j s).slotAt T i = buf.slotAt T i := by
  by_cases hij : j = i
  · subst hij
    by_cases hl : j < buf.slots.length
    · exact Or.inl ⟨slotAt_setSlot_self T buf j s hl, rfl, hl⟩
    · exact Or.inr (by rw [setSlot_out_of_range T buf j s (Nat.le_of_not_lt hl)])
  · exact Or.inr (slotAt_setSlot_ne T buf j i s hij)

/-- A producer action leaves every Sequenced slot untouched. -/
theorem ProdStep.slot_preserved {T : Type} {b b' : Buffer T}
    (hp : ProdStep T b b') (i : Nat)
    (hi : (b.slotAt T i).state = SlotState.Sequenced) :
    b'.slotAt T i = b.slotAt T i := by
  cases hp with
  | claimCAS j hj =>
    rcases slotAt_setSlot_cases T b j
        { b.slotAt T j with state := SlotState.Claimed } i with
      ⟨_, rfl, _⟩ | he
    · rw [hj] at hi
      cases hi
    · exact he
  | headAdd => rfl
  | write j v ts pid hj =>
    rcases slotAt_setSlot_cases T b j
        { b.slotAt T j with payload := some v, timestamp := ts,
                            producer_id := pid } i with
      ⟨_, rfl, _⟩ | he
    · rw [hj] at hi
      cases hi
    · exact he
  | publish j hj =>
    rcases slotAt_setSlot_cases T b j
        { b.slotAt T j with state := SlotState.Published } i with
      ⟨_, rfl, _⟩ | he
    · rw [hj] at hi
      cases hi
    · exact he

/-- A producer action never makes a slot Sequenced. -/
theorem ProdStep.not_sequenced {T : Type} {b b' : Buffer T}
    (hp : ProdStep T b b') (i : Nat)
    (hi : (b.slotAt T i).state ≠ SlotState.Sequenced) :
    (b'.slotAt T i).state ≠ SlotState.Sequenced := by
  cases hp with
  | claimCAS j hj =>
    rcases slotAt_setSlot_cases T b j
        { b.slotAt T j with state := SlotState.Claimed } i with
      ⟨he, rfl, _⟩ | he
    · rw [he]
      simp
    · rw [he]
      exact hi
  | headAdd => exact hi
  | write j v ts pid hj =>
    rcases slotAt_setSlot_cases T b j
        { b.slotAt T j with payload := some v, timestamp := ts,
                            producer_id := pid } i with
      ⟨he, rfl, _⟩ | he
    · rw [he]
      exact hi
    · rw [he]
      exact hi
  | publish j hj =>
    rcases slotAt_setSlot_cases T b j
        { b.slotAt T j with state := SlotState.Published } i with
      ⟨he, rfl, _⟩ | he
    · rw [he]
      simp
    · rw [he]
      exact hi

/-- Producer interference preserves the sequencer's invariant. -/
theorem SeqInv.prodStep {T : Type} {s : SeqState T} {buf' : Buffer T}
    (hinv : SeqInv T s) (hp : ProdStep T s.buf buf') :
    SeqInv T { s with buf := buf' } := by
  obtain ⟨hc, _, _, _⟩ := hp.prod_fields_eq
  refine ⟨hp.wf hinv.wf, hinv.seq_eq, ?_, ?_, ?_⟩
  · exact hc ▸ hinv.scan_le
  · intro i hi
    rw [show ({ s with buf := buf' } : SeqState T).buf = buf' from rfl,
        hp.slot_preserved i (hinv.below i hi).1]
    exact hinv.below i hi
  · intro i hi hic
    exact hp.not_sequenced i (hinv.above i hi (hc ▸ hic))

/-- One iteration of the sequencer body: it either spins in place with no
store, or promotes the slot at exactly `scan_pos`, stamping sequence
`scan_pos`, and advances by one.  The invariant is preserved. -/
theorem seqStep_inv {T : Type} {s : SeqState T} (hinv : SeqInv T s) :
    SeqInv T (seqStep T s).2 ∧
    ((seqStep T s).1 = [] ∧ (seqStep T s).2 = s ∨
     (seqStep T s).1 =
       [SAct.storedSequence s.scan_pos s.scan_pos,
        SAct.storedState s.scan_pos] ∧
     (seqStep T s).2.scan_pos = s.scan_pos + 1) := by
  by_cases hpub :
      (s.buf.slotAt T (s.scan_pos &&& s.buf.mask)).state = SlotState.Published
  · have hlt : s.scan_pos < s.buf.capacity := by
      rcases Nat.lt_or_ge s.scan_pos s.buf.capacity with h | h
      · exact h
      · exfalso
        have he : s.scan_pos = s.buf.capacity := Nat.le_antisymm hinv.scan_le h
        rw [he, hinv.wf.mask_and_cap] at hpub
        have h0 : (s.buf.slotAt T 0).state = SlotState.Sequenced :=
          (hinv.below 0 (he ▸ hinv.wf.cap_pos)).1
        rw [h0] at hpub
        cases hpub
    have hidx : s.scan_pos &&& s.buf.mask = s.scan_pos :=
      hinv.wf.mask_and_lt hlt
    rw [hidx] at hpub
    have hlen1 : s.scan_pos < s.buf.slots.length := by
      rw [hinv.wf.len]
      exact hlt
    set slot0 := s.buf.slotAt T s.scan_pos with hs0
    set buf1 := s.buf.setSlot T s.scan_pos { slot0 with sequence := s.next_seq }
      with hb1
    set buf2 := buf1.setSlot T s.scan_pos
      { buf1.slotAt T s.scan_pos with state := SlotState.Sequenced } with hb2
    have hstep : seqStep T s =
        ([SAct.storedSequence s.scan_pos s.next_seq,
          SAct.storedState s.scan_pos],
         { buf := buf2, next_seq := s.next_seq + 1,
           scan_pos := s.scan_pos + 1 }) := by
      simp only [seqStep, hidx, ← hs0, ← hb1, ← hb2]
      rw [if_pos hpub]
    have hmid : buf1.slotAt T s.scan_pos =
        { slot0 with sequence := s.next_seq } := by
      rw [hb1]
      exact slotAt_setSlot_self T s.buf s.scan_pos _ hlen1
    have hwf1 : BufWF T buf1 := by
      rw [hb1]
      exact setSlot_wf hinv.wf _ _
    have hwf2 : BufWF T buf2 := by
      rw [hb2]
      exact setSlot_wf hwf1 _ _
    have hcap2 : buf2.capacity = s.buf.capacity := by
      rw [hb2, hb1, setSlot_capacity, setSlot_capacity]
    have hfinal : buf2.slotAt T s.scan_pos =
        { slot0 with sequence := s.next_seq, state := SlotState.Sequenced } := by
      rw [hb2]
      rw [slotAt_setSlot_self T buf1 s.scan_pos _
        (by rw [hb1, setSlot_length]; exact hlen1)]
      rw [hmid]
    have hother : ∀ i, i ≠ s.scan_pos → buf2.slotAt T i = s.buf.slotAt T i := by
      intro i hi
      rw [hb2, slotAt_setSlot_ne T buf1 s.scan_pos i _ (fun he => hi he.symm),
          hb1, slotAt_setSlot_ne T s.buf s.scan_pos i _ (fun he => hi he.symm)]
    rw [hstep]
    refine ⟨⟨hwf2, ?_, ?_, ?_, ?_⟩, Or.inr ⟨?_, rfl⟩⟩
    · show s.next_seq + 1 = s.scan_pos + 1
      rw [hinv.seq_eq]
    · show s.scan_pos + 1 ≤ buf2.capacity
      rw [hcap2]
      exact hlt
    · intro i hi
      show (buf2.slotAt T i).state = SlotState.Sequenced ∧
        (buf2.slotAt T i).sequence = i
      rcases Nat.lt_or_ge i s.scan_pos with h | h
      · rw [hother i (Nat.ne_of_lt h)]
        exact hinv.below i h
      · have hieq : i = s.scan_pos := by
          have hlt2 : i < s.scan_pos + 1 := hi
          omega
        subst hieq
        rw [hfinal]
        exact ⟨rfl, hinv.seq_eq⟩
    · intro i hi hic
      have hge : s.scan_pos + 1 ≤ i := hi
      have hne : i ≠ s.scan_pos := by omega
      show (buf2.slotAt T i).state ≠ SlotState.Sequenced
      rw [hother i hne]
      refine hinv.above i (by omega) ?_
      exact hcap2 ▸ hic
    · show [SAct.storedSequence s.scan_pos s.next_seq,
        SAct.storedState s.scan_pos] =
        [SAct.storedSequence s.scan_pos s.scan_pos,
         SAct.storedState s.scan_pos]
      rw [hinv.seq_eq]
  · have hstep : seqStep T s = ([], s) := by
      rw [seqStep]
      simp only [if_neg hpub]
    rw [hstep]
    exact ⟨hinv, Or.inl ⟨rfl, rfl⟩⟩

/-- Along any interleaved run started at `scan_pos = 0`, the sequencer's
invariant holds and its store trace is exactly the in-order promotion of
slots 0, 1, 2, …, each promotion being the sequence store (with value equal
to the slot index) followed by the Sequenced store. -/
theorem seqReach_inv {T : Type} {s0 : SeqState T} {tr : List SAct}
    {s : SeqState T} (h : SeqReach T s0 tr s) (hinv : SeqInv T s0)
    (h0 : s0.scan_pos = 0) :
    SeqInv T s ∧
    tr = (List.range s.scan_pos).flatMap
      (fun k => [SAct.storedSequence k k, SAct.storedState k]) := by
  induction h with
  | refl =>
    refine ⟨hinv, ?_⟩
    rw [h0]
    rfl
  | prod =>
    rename_i s' buf'' hreach hp ih
    refine ⟨SeqInv.prodStep ih.1 hp, ?_⟩
    show _ = (List.range s'.scan_pos).flatMap _
    exact ih.2
  | seq =>
    rename_i s' hreach ih
    obtain ⟨hinv', hdich⟩ := seqStep_inv (T := T) (s := s') ih.1
    refine ⟨hinv', ?_⟩
    rcases hdich with ⟨he, hs⟩ | ⟨he, hsc⟩
    · rw [he, hs]
      simpa using ih.2
    · rw [he, hsc, List.range_succ, List.flatMap_append, ← ih.2]
      rfl

/-! ### Behaviour of the producer's claim loop -/

/-- A terminating claim: the claimed index is `head & mask`, the CAS and the
head increment are the last two actions (in that order), everything before
them is a failed CAS, a spin hint or a yield, and the resulting buffer is
the old one with that slot Claimed and `head` advanced by one. -/
theorem claim_some {T : Type} (buf : Buffer T) (casOk : Nat → Bool) :
    ∀ (fuel attempts : Nat) (tr : List PAct) (i : Nat) (buf' : Buffer T),
    Producer.claim T buf casOk attempts fuel = (tr, some (i, buf')) →
    i = buf.head &&& buf.mask ∧
    buf' = { buf with
        slots := buf.slots.set i
          { buf.slotAt T i with state := SlotState.Claimed },
        head := buf.head + 1 } ∧
    ∃ pre, tr = pre ++ [PAct.claimed i, PAct.headAdvanced] ∧
      ∀ x ∈ pre, x = PAct.casFailed i ∨ x = PAct.spun ∨ x = PAct.yielded := by
  intro fuel
  induction fuel with
  | zero =>
    intro attempts tr i buf' h
    simp [Producer.claim] at h
  | succ fuel ih =>
    intro attempts tr i buf' h
    simp only [Producer.claim] at h
    split at h
    · split at h
      · obtain ⟨htr, hres⟩ := Prod.mk.injEq .. ▸ h
        obtain ⟨hi, hbuf⟩ := Prod.mk.injEq .. ▸ Option.some.injEq .. ▸ hres
        subst hi
        refine ⟨rfl, hbuf.symm, [], ?_, by simp⟩
        rw [← htr]
        rfl
      · obtain ⟨htr, hres⟩ := Prod.mk.injEq .. ▸ h
        obtain ⟨hi, hbuf, pre, hpre, hmem⟩ :=
          ih attempts (Producer.claim T buf casOk attempts fuel).1 i buf'
            (by rw [← hres])
        refine ⟨hi, hbuf,
          PAct.casFailed (buf.head &&& buf.mask) :: PAct.spun :: pre, ?_, ?_⟩
        · rw [← htr, hpre]
          rfl
        · intro x hx
          rcases List.mem_cons.mp hx with hx | hx
          · rw [hx, hi]
            exact Or.inl rfl
          · rcases List.mem_cons.mp hx with hx | hx
            · rw [hx]
              exact Or.inr (Or.inl rfl)
            · exact hmem x hx
    · split at h
      · obtain ⟨htr, hres⟩ := Prod.mk.injEq .. ▸ h
        obtain ⟨hi, hbuf, pre, hpre, hmem⟩ :=
          ih 0 (Producer.claim T buf casOk 0 fuel).1 i buf' (by rw [← hres])
        refine ⟨hi, hbuf, PAct.yielded :: PAct.spun :: pre, ?_, ?_⟩
        · rw [← htr, hpre]
          rfl
        · intro x hx
          rcases List.mem_cons.mp hx with hx | hx
          · rw [hx]
            exact Or.inr (Or.inr rfl)
          · rcases List.mem_cons.mp hx with hx | hx
            · rw [hx]
              exact Or.inr (Or.inl rfl)
            · exact hmem x hx
      · obtain ⟨htr, hres⟩ := Prod.mk.injEq .. ▸ h
        obtain ⟨hi, hbuf, pre, hpre, hmem⟩ :=
          ih (attempts + 1) (Producer.claim T buf casOk (attempts + 1) fuel).1
            i buf' (by rw [← hres])
        refine ⟨hi, hbuf, PAct.spun :: pre, ?_, ?_⟩
        · rw [← htr, hpre]
          rfl
        · intro x hx
          rcases List.mem_cons.mp hx with hx | hx
          · rw [hx]
            exact Or.inr (Or.inl rfl)
          · exact hmem x hx

/-- A claim attempt that has not terminated has performed only failed CAS
attempts, spin hints and yields: in particular it has not advanced `head`. -/
theorem claim_none_acts {T : Type} (buf : Buffer T) (casOk : Nat → Bool) :
    ∀ (fuel attempts : Nat) (tr : List PAct),
    Producer.claim T buf casOk attempts fuel = (tr, none) →
    ∀ x ∈ tr, x = PAct.casFailed (buf.head &&& buf.mask) ∨
      x = PAct.spun ∨ x = PAct.yielded := by
  intro fuel
  induction fuel with
  | zero =>
    intro attempts tr h
    obtain ⟨htr, _⟩ := Prod.mk.injEq .. ▸ h
    rw [← htr]
    intro x hx
    cases hx
  | succ fuel ih =>
    intro attempts tr h
    simp only [Producer.claim] at h
    split at h
    · split at h
      · obtain ⟨_, hres⟩ := Prod.mk.injEq .. ▸ h
        cases hres
      · obtain ⟨htr, hres⟩ := Prod.mk.injEq .. ▸ h
        have hmem := ih attempts (Producer.claim T buf casOk attempts fuel).1
          (by rw [← hres])
        rw [← htr]
        intro x hx
        rcases List.mem_cons.mp hx with hx | hx
        · rw [hx]
          exact Or.inl rfl
        · rcases List.mem_cons.mp hx with hx | hx
          · rw [hx]
            exact Or.inr (Or.inl rfl)
          · exact hmem x hx
    · split at h
      · obtain ⟨htr, hres⟩ := Prod.mk.injEq .. ▸ h
        have hmem := ih 0 (Producer.claim T buf casOk 0 fuel).1
          (by rw [← hres])
        rw [← htr]
        intro x hx
        rcases List.mem_cons.mp hx with hx | hx
        · rw [hx]
          exact Or.inr (Or.inr rfl)
        · rcases List.mem_cons.mp hx with hx | hx
          · rw [hx]
            exact Or.inr (Or.inl rfl)
          · exact hmem x hx
      · obtain ⟨htr, hres⟩ := Prod.mk.injEq .. ▸ h
        have hmem := ih (attempts + 1)
          (Producer.claim T buf casOk (attempts + 1) fuel).1 (by rw [← hres])
        rw [← htr]
        intro x hx
        rcases List.mem_cons.mp hx with hx | hx
        · rw [hx]
          exact Or.inr (Or.inl rfl)
        · exact hmem x hx

/-- When the candidate slot is not Free, the claim loop never terminates
(the source spins), and once enough iterations have passed the fixed spin
budget it has yielded the thread. -/
theorem claim_nonfree {T : Type} (buf : Buffer T) (casOk : Nat → Bool)
    (hnf : (buf.slotAt T (buf.head &&& buf.mask)).state ≠ SlotState.Free) :
    ∀ (fuel attempts : Nat),
    (Producer.claim T buf casOk attempts fuel).2 = none ∧
    (attempts ≤ MAX_SPIN → MAX_SPIN + 1 ≤ attempts + fuel →
      PAct.yielded ∈ (Producer.claim T buf casOk attempts fuel).1) := by
  intro fuel
  induction fuel with
  | zero =>
    intro attempts
    refine ⟨rfl, ?_⟩
    intro h1 h2
    omega
  | succ fuel ih =>
    intro attempts
    simp only [Producer.claim, if_neg hnf]
    by_cases hy : attempts + 1 > MAX_SPIN
    · rw [if_pos hy]
      refine ⟨(ih 0).1, ?_⟩
      intro _ _
      exact List.mem_cons_self _ _
    · rw [if_neg hy]
      refine ⟨(ih (attempts + 1)).1, ?_⟩
      intro h1 h2
      refine List.mem_cons_of_mem _ ((ih (attempts + 1)).2 (by omega) (by omega))

theorem setSlot_head (T : Type) (buf : Buffer T) (i : Nat) (s : Slot T) :
    (buf.setSlot T i s).head = buf.head := rfl

theorem setSlot_tail (T : Type) (buf : Buffer T) (i : Nat) (s : Slot T) :
    (buf.setSlot T i s).tail = buf.tail := rfl

/-- A terminating push returns `Ok`, leaves the claimed slot Published with
the pushed event, timestamp and producer id, advances `head` by one, leaves
`tail` alone, and its action trace is spins / failed CAS attempts / yields
followed by exactly CAS, head advance, the field writes, and the Published
store, in that order. -/
theorem push_some {T : Type} (buf : Buffer T) (casOk : Nat → Bool)
    (fuel : Nat) (ev : T) (ts id : Nat) (tr : List PAct)
    (r : Except PushError Unit) (buf' : Buffer T)
    (hlen : buf.head &&& buf.mask < buf.slots.length)
    (h : Producer.push T buf casOk fuel ev ts id = (tr, some (r, buf'))) :
    r = Except.ok () ∧
    buf'.head = buf.head + 1 ∧
    buf'.tail = buf.tail ∧
    (buf'.slotAt T (buf.head &&& buf.mask)).state = SlotState.Published ∧
    (buf'.slotAt T (buf.head &&& buf.mask)).payload = some ev ∧
    (buf'.slotAt T (buf.head &&& buf.mask)).timestamp = ts ∧
    (buf'.slotAt T (buf.head &&& buf.mask)).producer_id = id ∧
    ∃ pre, tr = pre ++
        [PAct.claimed (buf.head &&& buf.mask), PAct.headAdvanced,
         PAct.wrotePayload (buf.head &&& buf.mask),
         PAct.storedPublished (buf.head &&& buf.mask)] ∧
      ∀ x ∈ pre, x = PAct.casFailed (buf.head &&& buf.mask) ∨
        x = PAct.spun ∨ x = PAct.yielded := by
  rw [Producer.push] at h
  split at h
  · rename_i heq
    obtain ⟨_, hres⟩ := Prod.mk.injEq .. ▸ h
    cases hres
  · rename_i tr0 i0 buf1 heq
    obtain ⟨hi0, hbuf1, pre, hpre, hmem⟩ :=
      claim_some buf casOk fuel 0 tr0 i0 buf1 heq
    subst hi0
    subst hbuf1
    obtain ⟨htr, hres⟩ := Prod.mk.injEq .. ▸ h
    obtain ⟨hr, hbuf'⟩ := Prod.mk.injEq .. ▸ Option.some.injEq .. ▸ hres
    have hlen0 : ∀ (bufx : Buffer T),
        bufx.slots = buf.slots.set (buf.head &&& buf.mask)
          { buf.slotAt T (buf.head &&& buf.mask) with
              state := SlotState.Claimed } →
        buf.head &&& buf.mask < bufx.slots.length := by
      intro bufx hx
      rw [hx]
      simpa using hlen
    have hs1 : ∀ (bufx : Buffer T),
        bufx.slots = buf.slots.set (buf.head &&& buf.mask)
          { buf.slotAt T (buf.head &&& buf.mask) with
              state := SlotState.Claimed } →
        bufx.slotAt T (buf.head &&& buf.mask) =
          { buf.slotAt T (buf.head &&& buf.mask) with
              state := SlotState.Claimed } := by
      intro bufx hx
      simp [Buffer.slotAt, hx, List.getD, List.getElem?_set_self', hlen]
    have hslotFinal : (buf'.slotAt T (buf.head &&& buf.mask)) =
        { buf.slotAt T (buf.head &&& buf.mask) with
            state := SlotState.Published, payload := some ev,
            timestamp := ts, producer_id := id } := by
      rw [← hbuf']
      rw [slotAt_setSlot_self T _ _ _
        (by rw [setSlot_length]; exact hlen0 _ rfl)]
      rw [slotAt_setSlot_self T _ _ _ (hlen0 _ rfl)]
      rw [hs1 _ rfl]
    refine ⟨hr.symm, ?_, ?_, ?_, ?_, ?_, ?_, ?_⟩
    · rw [← hbuf', setSlot_head, setSlot_head]
    · rw [← hbuf', setSlot_tail, setSlot_tail]
    · rw [hslotFinal]
    · rw [hslotFinal]
    · rw [hslotFinal]
    · rw [hslotFinal]
    · refine ⟨pre, ?_, hmem⟩
      rw [← htr, hpre]
      simp

/-! ### Behaviour of the consumer -/

theorem try_next_none {T : Type} [Inhabited T] (buf : Buffer T) (c : Consumer)
    (h : (buf.slotAt T (c.cursor &&& buf.mask)).state ≠ SlotState.Sequenced ∨
         (buf.slotAt T (c.cursor &&& buf.mask)).sequence ≠ c.cursor) :
    Consumer.try_next T buf c = (none, c) := by
  simp only [Consumer.try_next]
  by_cases h1 : (buf.slotAt T (c.cursor &&& buf.mask)).state ≠ SlotState.Sequenced
  · rw [if_pos h1]
  · rw [if_neg h1]
    rcases h with h | h
    · exact absurd h1 (fun hc => hc h)
    · rw [if_pos h]

theorem try_next_some {T : Type} [Inhabited T] (buf : Buffer T) (c : Consumer)
    (h1 : (buf.slotAt T (c.cursor &&& buf.mask)).state = SlotState.Sequenced)
    (h2 : (buf.slotAt T (c.cursor &&& buf.mask)).sequence = c.cursor) :
    Consumer.try_next T buf c =
      (some { sequence := c.cursor,
              timestamp := (buf.slotAt T (c.cursor &&& buf.mask)).timestamp,
              producer_id := (buf.slotAt T (c.cursor &&& buf.mask)).producer_id,
              payload :=
                (buf.slotAt T (c.cursor &&& buf.mask)).payload.getD default },
       { cursor := c.cursor + 1 }) := by
  simp only [Consumer.try_next]
  rw [if_neg (by simp [h1]), if_neg (by simp [h2]), h2]

/-- Draining a quiescent buffer whose slots `0 … K-1` are Sequenced (with
sequence equal to index) and whose remaining slots are not: starting at
cursor `c ≤ K` with enough fuel yields exactly the records of slots
`c … K-1`, in order. -/
theorem consumeRun_eq {T : Type} [Inhabited T] (buf : Buffer T) (K : Nat)
    (hwf : BufWF T buf) (hK : K ≤ buf.capacity)
    (hseq : ∀ i, i < K → (buf.slotAt T i).state = SlotState.Sequenced ∧
      (buf.slotAt T i).sequence = i)
    (hrest : ∀ i, K ≤ i → i < buf.capacity →
      (buf.slotAt T i).state ≠ SlotState.Sequenced) :
    ∀ (fuel c : Nat), c ≤ K → K - c < fuel →
    consumeRun T buf { cursor := c } fuel =
      (List.range' c (K - c)).map (eventOf T buf) := by
  intro fuel
  induction fuel with
  | zero =>
    intro c hc hfuel
    omega
  | succ fuel ih =>
    intro c hc hfuel
    rcases Nat.lt_or_ge c K with hcK | hcK
    · have hidx : c &&& buf.mask = c :=
        hwf.mask_and_lt (Nat.lt_of_lt_of_le hcK hK)
      have hslot := hseq c hcK
      have hsome := try_next_some buf { cursor := c }
        (by rw [show ({ cursor := c } : Consumer).cursor = c from rfl, hidx]
            exact hslot.1)
        (by rw [show ({ cursor := c } : Consumer).cursor = c from rfl, hidx]
            exact hslot.2)
      simp only [hidx] at hsome
      have hred : consumeRun T buf { cursor := c } (fuel + 1) =
          ({ sequence := c, timestamp := (buf.slotAt T c).timestamp,
             producer_id := (buf.slotAt T c).producer_id,
             payload := (buf.slotAt T c).payload.getD default } : Event T) ::
          consumeRun T buf { cursor := c + 1 } fuel := by
        rw [consumeRun, hsome]
      have hKc : K - c = (K - (c + 1)) + 1 := by omega
      rw [hred, hKc, List.range'_succ, List.map_cons,
          ih (c + 1) (by omega) (by omega)]
      congr 1
      rw [eventOf, hslot.2]
    · have hceq : c = K := Nat.le_antisymm hc hcK
      subst hceq
      have hnone : Consumer.try_next T buf { cursor := c } = (none, { cursor := c }) := by
        apply try_next_none
        rw [show ({ cursor := c } : Consumer).cursor = c from rfl]
        rcases Nat.lt_or_ge c buf.capacity with hlt | hge
        · rw [hwf.mask_and_lt hlt]
          exact Or.inl (hrest c (Nat.le_refl c) hlt)
        · have hcc : c = buf.capacity := Nat.le_antisymm hK hge
          subst hcc
          rw [hwf.mask_and_cap]
          refine Or.inr ?_
          rw [(hseq 0 hwf.cap_pos).2]
          exact fun h0 => Nat.lt_irrefl 0 (h0 ▸ hwf.cap_pos)
      rw [consumeRun, hnone]
      rw [Nat.sub_self]
      rfl

/-- A terminating push, without any well-formedness assumption: the result
is `Ok`, `head` advances by exactly one, `tail` is untouched, and the trace
is spins / failed CAS attempts / yields followed by exactly the winning CAS,
the head advance, the field writes and the Published store, in that order. -/
theorem push_head_trace {T : Type} (buf : Buffer T) (casOk : Nat → Bool)
    (fuel : Nat) (ev : T) (ts id : Nat) (tr : List PAct)
    (r : Except PushError Unit) (buf' : Buffer T)
    (h : Producer.push T buf casOk fuel ev ts id = (tr, some (r, buf'))) :
    r = Except.ok () ∧
    buf'.head = buf.head + 1 ∧
    buf'.tail = buf.tail ∧
    ∃ pre, tr = pre ++
        [PAct.claimed (buf.head &&& buf.mask), PAct.headAdvanced,
         PAct.wrotePayload (buf.head &&& buf.mask),
         PAct.storedPublished (buf.head &&& buf.mask)] ∧
      ∀ x ∈ pre, x = PAct.casFailed (buf.head &&& buf.mask) ∨
        x = PAct.spun ∨ x = PAct.yielded := by
  rw [Producer.push] at h
  split at h
  · rename_i heq
    obtain ⟨_, hres⟩ := Prod.mk.injEq .. ▸ h
    cases hres
  · rename_i tr0 i0 buf1 heq
    obtain ⟨hi0, hbuf1, pre, hpre, hmem⟩ :=
      claim_some buf casOk fuel 0 tr0 i0 buf1 heq
    subst hi0
    subst hbuf1
    obtain ⟨htr, hres⟩ := Prod.mk.injEq .. ▸ h
    obtain ⟨hr, hbuf2⟩ := Prod.mk.injEq .. ▸ Option.some.injEq .. ▸ hres
    refine ⟨hr.symm, ?_, ?_, pre, ?_, hmem⟩
    · rw [← hbuf2, setSlot_head, setSlot_head]
    · rw [← hbuf2, setSlot_tail, setSlot_tail]
    · rw [← htr, hpre]
      simp

/-! ### The claims -/

/-- Claim C4, counterexample: the claim restricts successful construction to
capacities with `2 ≤ capacity`, but `Buffer::new` accepts capacity 1
(`is_power_of_two(1)` holds in the source), so construction succeeds at a
capacity the claim says must be rejected. -/
theorem C4_counterexample :
    (Buffer.new Nat 1).isOk = true ∧ ¬ 2 ≤ 1 := by
  exact ⟨rfl, by decide⟩

/-- Claim C4 (amended): construction succeeds exactly for power-of-two
capacities `1 ≤ capacity ≤ 2^30` (capacity 1 included): InvalidCapacity
exactly when the capacity is not a power of two (zero included), TooLarge
exactly when it is a power of two above `2^30` (the power-of-two test runs
first), and on success the buffer's capacity is the requested one with
`mask = capacity - 1`. -/
theorem C4_build_validation (T : Type) (cap : Nat) :
    (∀ n : Nat, is_power_of_two n = true ↔ ∃ k, n = 2 ^ k) ∧
    (Buffer.new T cap = Except.error BuildError.InvalidCapacity ↔
      is_power_of_two cap = false) ∧
    (Buffer.new T cap = Except.error BuildError.TooLarge ↔
      is_power_of_two cap = true ∧ MAX_CAPACITY < cap) ∧
    ((∃ buf, Buffer.new T cap = Except.ok buf) ↔
      is_power_of_two cap = true ∧ cap ≤ MAX_CAPACITY) ∧
    (∀ buf, Buffer.new T cap = Except.ok buf →
      buf.capacity = cap ∧ buf.mask = cap - 1) := by
  refine ⟨is_power_of_two_iff, ?_, ?_, ?_, ?_⟩
  · constructor
    · intro h
      by_contra hpow
      have hpow' : is_power_of_two cap = true :=
        Bool.of_not_eq_false hpow
      by_cases h2 : cap ≤ MAX_CAPACITY
      · rw [Buffer.new_eq_ok T cap hpow' h2] at h
        cases h
      · rw [Buffer.new_eq_tooLarge T cap hpow' (Nat.lt_of_not_le h2)] at h
        cases h
    · exact Buffer.new_eq_invalid T cap
  · constructor
    · intro h
      by_cases hpow : is_power_of_two cap
      · by_cases h2 : cap ≤ MAX_CAPACITY
        · rw [Buffer.new_eq_ok T cap hpow h2] at h
          cases h
        · exact ⟨hpow, Nat.lt_of_not_le h2⟩
      · rw [Buffer.new_eq_invalid T cap (Bool.of_not_eq_true hpow)] at h
        cases h
    · intro ⟨h1, h2⟩
      exact Buffer.new_eq_tooLarge T cap h1 h2
  · constructor
    · intro ⟨buf, h⟩
      obtain ⟨h1, h2, _⟩ := Buffer.new_ok_inv T cap buf h
      exact ⟨h1, h2⟩
    · intro ⟨h1, h2⟩
      exact ⟨_, Buffer.new_eq_ok T cap h1 h2⟩
  · intro buf h
    obtain ⟨_, _, _, hc, hm, _, _⟩ := Buffer.new_ok_inv T cap buf h
    exact ⟨hc, hm⟩

/-- Claim C4, witness: the amended validation at the spec's own boundary
examples, plus acceptance of capacity 1. -/
theorem C4_build_validation_witness :
    Buffer.new Nat 0 = Except.error BuildError.InvalidCapacity ∧
    Buffer.new Nat 3 = Except.error BuildError.InvalidCapacity ∧
    Buffer.new Nat (2 ^ 31) = Except.error BuildError.TooLarge ∧
    (∃ buf : Buffer Nat, Buffer.new Nat 1024 = Except.ok buf) ∧
    (∃ buf : Buffer Nat, Buffer.new Nat 1 = Except.ok buf) ∧
    bufA.capacity = 1 ∧ bufA.mask = 0 := by
  refine ⟨?_, ?_, ?_, ?_, ?_, ?_, ?_⟩
  · exact (C4_build_validation Nat 0).2.1.mpr (by decide)
  · exact (C4_build_validation Nat 3).2.1.mpr (by decide)
  · exact (C4_build_validation Nat (2 ^ 31)).2.2.1.mpr ⟨by decide, by decide⟩
  · exact (C4_build_validation Nat 1024).2.2.2.1.mpr ⟨by decide, by decide⟩
  · exact (C4_build_validation Nat 1).2.2.2.1.mpr ⟨by decide, by decide⟩
  · exact ((C4_build_validation Nat 1).2.2.2.2 bufA rfl).1
  · exact ((C4_build_validation Nat 1).2.2.2.2 bufA rfl).2

/-- Claim C9: building from a builder whose capacity was never set succeeds
and yields the default capacity 1024 with mask 1023 (`unwrap_or(1024)` in
`BufferBuilder::build`); the fresh builder indeed has no capacity set. -/
theorem C9_builder_default_capacity (T : Type) :
    BufferBuilder.new.capacity = none ∧
    ∃ buf : Buffer T,
      BufferBuilder.build T BufferBuilder.new = Except.ok buf ∧
      buf.capacity = 1024 ∧ buf.mask = 1023 := by
  refine ⟨rfl, ?_⟩
  have h : BufferBuilder.build T BufferBuilder.new = Buffer.new T 1024 := rfl
  rw [h, Buffer.new_eq_ok T 1024 (by decide) (by decide)]
  exact ⟨_, rfl, rfl, rfl⟩

/-- One iteration of the sequencer loop body never touches `tail`. -/
theorem seqStep_tail {T : Type} (s : SeqState T) :
    (seqStep T s).2.buf.tail = s.buf.tail := by
  simp only [seqStep]
  split
  · simp [Buffer.setSlot]
  · rfl

/-- Claim C2: `try_next` returns None and leaves the cursor unchanged when
the slot at `cursor & mask` is not Sequenced or its stored sequence differs
from the cursor; otherwise it returns the slot's record — whose sequence
field equals the cursor at the start of the call — and advances the cursor
by exactly one; and a consumer created on a freshly built buffer (before
any push) returns None. -/
theorem C2_try_next (T : Type) [Inhabited T] :
    (∀ (buf : Buffer T) (c : Consumer),
      ((buf.slotAt T (c.cursor &&& buf.mask)).state ≠ SlotState.Sequenced ∨
       (buf.slotAt T (c.cursor &&& buf.mask)).sequence ≠ c.cursor) →
      Consumer.try_next T buf c = (none, c)) ∧
    (∀ (buf : Buffer T) (c : Consumer),
      (buf.slotAt T (c.cursor &&& buf.mask)).state = SlotState.Sequenced →
      (buf.slotAt T (c.cursor &&& buf.mask)).sequence = c.cursor →
      Consumer.try_next T buf c =
        (some { sequence := c.cursor,
                timestamp := (buf.slotAt T (c.cursor &&& buf.mask)).timestamp,
                producer_id :=
                  (buf.slotAt T (c.cursor &&& buf.mask)).producer_id,
                payload :=
                  (buf.slotAt T (c.cursor &&& buf.mask)).payload.getD
                    default },
         { cursor := c.cursor + 1 })) ∧
    (∀ (cap : Nat) (buf : Buffer T), Buffer.new T cap = Except.ok buf →
      Consumer.try_next T buf Consumer.new = (none, Consumer.new)) := by
  refine ⟨try_next_none, try_next_some, ?_⟩
  intro cap buf h
  obtain ⟨_, _, hs, _, _, _, _⟩ := Buffer.new_ok_inv T cap buf h
  apply try_next_none
  left
  simp only [Buffer.slotAt, hs, getD_replicate]
  intro hcon
  cases hcon

/-- Claim C2, witness: on the fresh one-slot buffer a new consumer gets
None; on a buffer whose slot 0 is Sequenced with sequence 0 a consumer at
cursor 0 gets that record and moves to cursor 1. -/
theorem C2_try_next_witness :
    Consumer.try_next Nat bufA Consumer.new = (none, Consumer.new) ∧
    Consumer.try_next Nat bufS { cursor := 0 } =
      (some { sequence := 0, timestamp := 7, producer_id := 0, payload := 42 },
       { cursor := 1 }) := by
  constructor
  · exact (C2_try_next Nat).2.2 1 bufA rfl
  · exact (C2_try_next Nat).2.1 bufS { cursor := 0 } rfl rfl

/-- Claim C5: under every atomic operation of the system (producer CAS,
head advance, field writes, publish store; sequencer sequence and state
stores), each slot's state is non-decreasing along
Free → Claimed → Published → Sequenced — in particular no slot ever returns
to Free — and once every slot of the buffer is Sequenced, no sequence of
further operations changes any slot again: the buffer is one-shot, bounded
to `capacity` published events over its lifetime. -/
theorem C5_lifecycle_monotone {T : Type} (b b' : Buffer T)
    (h : SysSteps T b b') :
    (∀ i, ((b.slotAt T i).state).rank ≤ ((b'.slotAt T i).state).rank) ∧
    (∀ i, (b.slotAt T i).state ≠ SlotState.Free →
      (b'.slotAt T i).state ≠ SlotState.Free) ∧
    (b.slots.length = b.capacity →
      (∀ i, i < b.capacity → (b.slotAt T i).state = SlotState.Sequenced) →
      b'.slots = b.slots) := by
  refine ⟨SysSteps.steps_rank_mono h, ?_,
    fun hlen hall => SysSteps.steps_frozen h hlen hall⟩
  intro i hfree hcon
  have hr := SysSteps.steps_rank_mono h i
  rw [hcon] at hr
  apply hfree
  cases hstate : (b.slotAt T i).state with
  | Free => rfl
  | Claimed =>
    rw [hstate] at hr
    exact absurd hr (by decide)
  | Published =>
    rw [hstate] at hr
    exact absurd hr (by decide)
  | Sequenced =>
    rw [hstate] at hr
    exact absurd hr (by decide)

/-- Claim C5, witness: a concrete CAS step moves the rank up on the claimed
slot, and on an all-Sequenced one-slot buffer a further step (a head
advance) leaves the slot array untouched. -/
theorem C5_lifecycle_monotone_witness :
    ((bufA.slotAt Nat 0).state.rank ≤
      ((bufA.setSlot Nat 0
        { bufA.slotAt Nat 0 with state := SlotState.Claimed }).slotAt
          Nat 0).state.rank) ∧
    ({ bufS with head := bufS.head + 1 } : Buffer Nat).slots = bufS.slots := by
  constructor
  · exact (C5_lifecycle_monotone bufA _
      (Relation.ReflTransGen.single
        (SysStep.ofProd _ _ (ProdStep.claimCAS bufA 0 rfl)))).1 0
  · refine (C5_lifecycle_monotone bufS _
      (Relation.ReflTransGen.single
        (SysStep.ofProd _ _ (ProdStep.headAdd bufS)))).2.2 rfl ?_
    intro i hi
    have hcap : bufS.capacity = 1 := rfl
    have h0 : i = 0 := by omega
    subst h0
    rfl

/-- Claim C6: a terminating push advances `head` by exactly one, the single
head advance coming immediately after the winning CAS and before the
payload writes and the Published store; a claim loop that has not succeeded
never advances `head`; and `head` is monotone non-decreasing under every
operation of the system. -/
theorem C6_head_advance (T : Type) :
    (∀ (buf : Buffer T) (casOk : Nat → Bool) (fuel : Nat) (ev : T)
       (ts id : Nat) (tr : List PAct) (r : Except PushError Unit)
       (buf' : Buffer T),
      Producer.push T buf casOk fuel ev ts id = (tr, some (r, buf')) →
      buf'.head = buf.head + 1 ∧
      ∃ pre, tr = pre ++
          [PAct.claimed (buf.head &&& buf.mask), PAct.headAdvanced,
           PAct.wrotePayload (buf.head &&& buf.mask),
           PAct.storedPublished (buf.head &&& buf.mask)] ∧
        PAct.headAdvanced ∉ pre ∧
        ∀ x ∈ pre, x = PAct.casFailed (buf.head &&& buf.mask) ∨
          x = PAct.spun ∨ x = PAct.yielded) ∧
    (∀ (buf : Buffer T) (casOk : Nat → Bool) (attempts fuel : Nat)
       (tr : List PAct),
      Producer.claim T buf casOk attempts fuel = (tr, none) →
      PAct.headAdvanced ∉ tr) ∧
    (∀ b b' : Buffer T, SysSteps T b b' → b.head ≤ b'.head) := by
  refine ⟨?_, ?_, ?_⟩
  · intro buf casOk fuel ev ts id tr r buf' h
    obtain ⟨_, hhead, _, pre, hpre, hmem⟩ :=
      push_head_trace buf casOk fuel ev ts id tr r buf' h
    refine ⟨hhead, pre, hpre, ?_, hmem⟩
    intro hin
    rcases hmem _ hin with hx | hx | hx <;> cases hx
  · intro buf casOk attempts fuel tr h hin
    rcases claim_none_acts buf casOk fuel attempts tr h _ hin with
      hx | hx | hx <;> cases hx
  · intro b b' h
    induction h with
    | refl => exact Nat.le_refl _
    | tail _ hstep ih => exact Nat.le_trans ih hstep.sys_head_mono

/-- Claim C6, witness: a concrete push advances head 0 → 1; a spun-out
claim trace contains no head advance; a single system step keeps head
monotone. -/
theorem C6_head_advance_witness :
    bufA_pushed.head = bufA.head + 1 ∧
    PAct.headAdvanced ∉ ([PAct.spun] : List PAct) ∧
    bufA.head ≤ ({ bufA with head := bufA.head + 1 } : Buffer Nat).head := by
  refine ⟨?_, ?_, ?_⟩
  · exact ((C6_head_advance Nat).1 bufA (fun _ => true) 1 42 7 0 _ _ _ rfl).1
  · exact (C6_head_advance Nat).2.1 bufS (fun _ => true) 0 1 [PAct.spun] rfl
  · exact (C6_head_advance Nat).2.2 bufA _
      (Relation.ReflTransGen.single
        (SysStep.ofProd _ _ (ProdStep.headAdd bufA)))

/-- Claim C10: `tail` is initialised to 0 at construction and no modelled
operation ever changes it: producer and sequencer atomic steps, whole
interleaved sequencer runs, and terminating pushes all leave it untouched
(`try_next` performs only loads and returns no buffer at all). -/
theorem C10_tail_write_dead (T : Type) :
    (∀ (cap : Nat) (buf : Buffer T), Buffer.new T cap = Except.ok buf →
      buf.tail = 0) ∧
    (∀ b b' : Buffer T, SysSteps T b b' → b'.tail = b.tail) ∧
    (∀ (s : SeqState T) (tr : List SAct) (s' : SeqState T),
      SeqReach T s tr s' → s'.buf.tail = s.buf.tail) ∧
    (∀ (buf : Buffer T) (casOk : Nat → Bool) (fuel : Nat) (ev : T)
       (ts id : Nat) (tr : List PAct) (r : Except PushError Unit)
       (buf' : Buffer T),
      Producer.push T buf casOk fuel ev ts id = (tr, some (r, buf')) →
      buf'.tail = buf.tail) := by
  refine ⟨?_, ?_, ?_, ?_⟩
  · intro cap buf h
    exact (Buffer.new_ok_inv T cap buf h).2.2.2.2.2.2
  · intro b b' h
    induction h with
    | refl => rfl
    | tail _ hstep ih => rw [hstep.sys_fields_eq.2.2.1, ih]
  · intro s tr s' h
    induction h with
    | refl => rfl
    | prod =>
      rename_i s2 buf2 hreach hp ih
      rw [show ({ s2 with buf := buf2 } : SeqState T).buf = buf2 from rfl]
      rw [hp.prod_fields_eq.2.2.1, ih]
    | seq =>
      rename_i s2 hreach ih
      rw [seqStep_tail, ih]
  · intro buf casOk fuel ev ts id tr r buf' h
    exact (push_head_trace buf casOk fuel ev ts id tr r buf' h).2.2.1

/-- Claim C10, witness: tail is 0 on the fresh buffer and unchanged by a
head advance, by a sequencer promotion, and by a concrete push. -/
theorem C10_tail_write_dead_witness :
    bufA.tail = 0 ∧
    ({ bufA with head := bufA.head + 1 } : Buffer Nat).tail = bufA.tail ∧
    (seqStep Nat { buf := bufP, next_seq := 0, scan_pos := 0 }).2.buf.tail =
      bufP.tail ∧
    bufA_pushed.tail = bufA.tail := by
  refine ⟨?_, ?_, ?_, ?_⟩
  · exact (C10_tail_write_dead Nat).1 1 bufA rfl
  · exact (C10_tail_write_dead Nat).2.1 bufA _
      (Relation.ReflTransGen.single
        (SysStep.ofProd _ _ (ProdStep.headAdd bufA)))
  · exact (C10_tail_write_dead Nat).2.2.1
      { buf := bufP, next_seq := 0, scan_pos := 0 }
      ([] ++ (seqStep Nat { buf := bufP, next_seq := 0, scan_pos := 0 }).1) _
      (SeqReach.seq _ _ _ (SeqReach.refl _))
  · exact (C10_tail_write_dead Nat).2.2.2 bufA (fun _ => true) 1 42 7 0 _ _ _
      rfl

/-- Claim C1: starting the sequencer on a buffer with no Sequenced slot
(fresh counters), along any interleaving with producers: its store trace is
exactly the promotion of slots 0, 1, 2, … in order, where the k-th
promotion stores sequence k — one more than the previous promotion, the
first being 0 — and then the Sequenced state, in that two-store order; a
Sequenced slot at ring index i carries sequence exactly i; and two
Sequenced slots at indices i < j satisfy sequence i < sequence j. -/
theorem C1_sequencer_contiguous {T : Type} (s0 : SeqState T)
    (tr : List SAct) (s : SeqState T)
    (hwf : BufWF T s0.buf) (hscan : s0.scan_pos = 0)
    (hseq0 : s0.next_seq = 0)
    (hnoseq : ∀ i, i < s0.buf.capacity →
      (s0.buf.slotAt T i).state ≠ SlotState.Sequenced)
    (hreach : SeqReach T s0 tr s) :
    tr = (List.range s.scan_pos).flatMap
      (fun k => [SAct.storedSequence k k, SAct.storedState k]) ∧
    (∀ i, i < s.buf.capacity →
      (s.buf.slotAt T i).state = SlotState.Sequenced →
      (s.buf.slotAt T i).sequence = i) ∧
    (∀ i j, i < j → j < s.buf.capacity →
      (s.buf.slotAt T i).state = SlotState.Sequenced →
      (s.buf.slotAt T j).state = SlotState.Sequenced →
      (s.buf.slotAt T i).sequence < (s.buf.slotAt T j).sequence) := by
  have hinv0 : SeqInv T s0 := by
    refine ⟨hwf, by rw [hscan, hseq0], by rw [hscan]; omega, ?_, ?_⟩
    · intro i hi
      rw [hscan] at hi
      omega
    · intro i _ hi
      exact hnoseq i hi
  obtain ⟨hinv, htr⟩ := seqReach_inv hreach hinv0 hscan
  have hbelow_of_seq : ∀ i, i < s.buf.capacity →
      (s.buf.slotAt T i).state = SlotState.Sequenced → i < s.scan_pos := by
    intro i hi hseq
    by_contra hge
    exact hinv.above i (Nat.le_of_not_lt hge) hi hseq
  refine ⟨htr, ?_, ?_⟩
  · intro i hi hseq
    exact (hinv.below i (hbelow_of_seq i hi hseq)).2
  · intro i j hij hj hsi hsj
    have hjlt := hbelow_of_seq j hj hsj
    have hilt : i < s.scan_pos := by omega
    rw [(hinv.below i hilt).2, (hinv.below j hjlt).2]
    exact hij

/-- Claim C1, witness: one sequencer iteration on a one-slot buffer whose
slot is Published promotes it with the two stores, sequence 0 first. -/
theorem C1_sequencer_contiguous_witness :
    ([] : List SAct) ++
      (seqStep Nat { buf := bufP, next_seq := 0, scan_pos := 0 }).1 =
    (List.range
        (seqStep Nat { buf := bufP, next_seq := 0, scan_pos := 0 }).2.scan_pos).flatMap
      (fun k => [SAct.storedSequence k k, SAct.storedState k]) := by
  refine (C1_sequencer_contiguous
    { buf := bufP, next_seq := 0, scan_pos := 0 } _ _
    ⟨rfl, rfl, 0, rfl⟩ rfl rfl ?_
    (SeqReach.seq _ _ _ (SeqReach.refl _))).1
  intro i hi
  have hcap : ({ buf := bufP, next_seq := 0, scan_pos := 0 } :
      SeqState Nat).buf.capacity = 1 := rfl
  have h0 : i = 0 := by omega
  subst h0
  intro hcon
  cases hcon

/-- Claim C3: a terminating push returns `Ok` — the variants BufferFull and
Shutdown are never produced — and the pushed event is written into the
claimed slot and published, never dropped; when the candidate slot is not
Free the push keeps spinning without a result, and once the iteration count
passes the fixed spin budget its trace contains a yield. -/
theorem C3_push_never_fails (T : Type) :
    (∀ (buf : Buffer T) (casOk : Nat → Bool) (fuel : Nat) (ev : T)
       (ts id : Nat) (tr : List PAct) (r : Except PushError Unit)
       (buf' : Buffer T),
      Producer.push T buf casOk fuel ev ts id = (tr, some (r, buf')) →
      r = Except.ok ()) ∧
    (∀ (buf : Buffer T) (casOk : Nat → Bool) (fuel : Nat) (ev : T)
       (ts id : Nat) (tr : List PAct) (r : Except PushError Unit)
       (buf' : Buffer T),
      buf.head &&& buf.mask < buf.slots.length →
      Producer.push T buf casOk fuel ev ts id = (tr, some (r, buf')) →
      (buf'.slotAt T (buf.head &&& buf.mask)).state = SlotState.Published ∧
      (buf'.slotAt T (buf.head &&& buf.mask)).payload = some ev ∧
      (buf'.slotAt T (buf.head &&& buf.mask)).timestamp = ts ∧
      (buf'.slotAt T (buf.head &&& buf.mask)).producer_id = id) ∧
    (∀ (buf : Buffer T) (casOk : Nat → Bool) (fuel : Nat) (ev : T)
       (ts id : Nat),
      (buf.slotAt T (buf.head &&& buf.mask)).state ≠ SlotState.Free →
      (Producer.push T buf casOk fuel ev ts id).2 = none ∧
      (MAX_SPIN + 1 ≤ fuel →
        PAct.yielded ∈ (Producer.push T buf casOk fuel ev ts id).1)) := by
  refine ⟨?_, ?_, ?_⟩
  · intro buf casOk fuel ev ts id tr r buf' h
    exact (push_head_trace buf casOk fuel ev ts id tr r buf' h).1
  · intro buf casOk fuel ev ts id tr r buf' hlen h
    obtain ⟨_, _, _, hst, hpl, hts, hid, _⟩ :=
      push_some buf casOk fuel ev ts id tr r buf' hlen h
    exact ⟨hst, hpl, hts, hid⟩
  · intro buf casOk fuel ev ts id hnf
    obtain ⟨hnone, hy⟩ := claim_nonfree buf casOk hnf fuel 0
    have hpair : Producer.claim T buf casOk 0 fuel =
        ((Producer.claim T buf casOk 0 fuel).1, none) := by
      rw [← hnone]
    have hpush : Producer.push T buf casOk fuel ev ts id =
        ((Producer.claim T buf casOk 0 fuel).1, none) := by
      rw [Producer.push, hpair]
    rw [hpush]
    refine ⟨rfl, ?_⟩
    intro hfuel
    exact hy (by decide) (by omega)

/-- Claim C3, witness: a concrete push returns Ok with the event stored and
published; on a buffer whose candidate slot is Sequenced, a push with fuel
past the spin budget yields no result and its trace contains a yield. -/
theorem C3_push_never_fails_witness :
    (Except.ok () : Except PushError Unit) = Except.ok () ∧
    ((bufA_pushed.slotAt Nat 0).state = SlotState.Published ∧
     (bufA_pushed.slotAt Nat 0).payload = some 42 ∧
     (bufA_pushed.slotAt Nat 0).timestamp = 7 ∧
     (bufA_pushed.slotAt Nat 0).producer_id = 0) ∧
    (Producer.push Nat bufS (fun _ => true) (MAX_SPIN + 1) 9 9 9).2 = none ∧
    PAct.yielded ∈ (Producer.push Nat bufS (fun _ => true) (MAX_SPIN + 1) 9 9 9).1 := by
  refine ⟨?_, ?_, ?_, ?_⟩
  · exact (C3_push_never_fails Nat).1 bufA (fun _ => true) 1 42 7 0 _ _ _ rfl
  · exact (C3_push_never_fails Nat).2.1 bufA (fun _ => true) 1 42 7 0 _ _ _
      (by decide) rfl
  · exact ((C3_push_never_fails Nat).2.2 bufS (fun _ => true) (MAX_SPIN + 1)
      9 9 9 (by decide)).1
  · exact ((C3_push_never_fails Nat).2.2 bufS (fun _ => true) (MAX_SPIN + 1)
      9 9 9 (by decide)).2 (Nat.le_refl _)

/-- Claim C7: the sequencer spins in place — no store, no advance — when
the slot at its scan position is Free, Claimed or Sequenced (anything but
Published), advances its scan position by exactly one when it promotes a
Published slot, and consequently, in any state reachable from a fresh
start, if a slot at index j is Sequenced then every slot at index i ≤ j is
Sequenced too: no slot is ever skipped. -/
theorem C7_sequencer_never_skips (T : Type) :
    (∀ s : SeqState T,
      (s.buf.slotAt T (s.scan_pos &&& s.buf.mask)).state ≠
        SlotState.Published →
      seqStep T s = ([], s)) ∧
    (∀ s : SeqState T,
      (s.buf.slotAt T (s.scan_pos &&& s.buf.mask)).state =
        SlotState.Published →
      (seqStep T s).2.scan_pos = s.scan_pos + 1) ∧
    (∀ (s0 : SeqState T) (tr : List SAct) (s : SeqState T),
      BufWF T s0.buf → s0.scan_pos = 0 → s0.next_seq = 0 →
      (∀ i, i < s0.buf.capacity →
        (s0.buf.slotAt T i).state ≠ SlotState.Sequenced) →
      SeqReach T s0 tr s →
      ∀ i j, i ≤ j → j < s.buf.capacity →
      (s.buf.slotAt T j).state = SlotState.Sequenced →
      (s.buf.slotAt T i).state = SlotState.Sequenced) := by
  refine ⟨?_, ?_, ?_⟩
  · intro s h
    simp only [seqStep]
    rw [if_neg h]
  · intro s h
    simp only [seqStep]
    rw [if_pos h]
  · intro s0 tr s hwf hscan hseq0 hnoseq hreach
    have hinv0 : SeqInv T s0 := by
      refine ⟨hwf, by rw [hscan, hseq0], by rw [hscan]; omega, ?_, ?_⟩
      · intro i hi
        rw [hscan] at hi
        omega
      · intro i _ hi
        exact hnoseq i hi
    obtain ⟨hinv, _⟩ := seqReach_inv hreach hinv0 hscan
    intro i j hij hj hsj
    have hjlt : j < s.scan_pos := by
      by_contra hge
      exact hinv.above j (Nat.le_of_not_lt hge) hj hsj
    exact (hinv.below i (by omega)).1

/-- Claim C7, witness: on a Free slot the sequencer spins in place; on a
Published slot it advances by one; after the concrete promotion, slot 0 at
or below any sequenced index is sequenced. -/
theorem C7_sequencer_never_skips_witness :
    seqStep Nat { buf := bufA, next_seq := 0, scan_pos := 0 } =
      ([], { buf := bufA, next_seq := 0, scan_pos := 0 }) ∧
    (seqStep Nat { buf := bufP, next_seq := 0, scan_pos := 0 }).2.scan_pos =
      0 + 1 ∧
    ((seqStep Nat
        { buf := bufP, next_seq := 0, scan_pos := 0 }).2.buf.slotAt
      Nat 0).state = SlotState.Sequenced := by
  refine ⟨?_, ?_, ?_⟩
  · exact (C7_sequencer_never_skips Nat).1
      { buf := bufA, next_seq := 0, scan_pos := 0 } (by decide)
  · exact (C7_sequencer_never_skips Nat).2.1
      { buf := bufP, next_seq := 0, scan_pos := 0 } rfl
  · refine (C7_sequencer_never_skips Nat).2.2
      { buf := bufP, next_seq := 0, scan_pos := 0 }
      ([] ++ (seqStep Nat { buf := bufP, next_seq := 0, scan_pos := 0 }).1) _
      ⟨rfl, rfl, 0, rfl⟩ rfl rfl ?_
      (SeqReach.seq _ _ _ (SeqReach.refl _)) 0 0 (Nat.le_refl 0) ?_ ?_
    · intro i hi
      have hcap : ({ buf := bufP, next_seq := 0, scan_pos := 0 } :
          SeqState Nat).buf.capacity = 1 := rfl
      have h0 : i = 0 := by omega
      subst h0
      intro hcon
      cases hcon
    · exact Nat.one_pos
    · rfl

/-- Claim C8: replay determinism — on a quiescent buffer whose slots
0 … K-1 are Sequenced with sequence equal to index and whose other slots
are not Sequenced, every consumer started fresh at cursor 0 and run to
exhaustion observes exactly the records of slots 0 … K-1, in that order;
in particular any two such runs observe identical records (the embedding of
`try_next` is read-only: no slot is altered by consuming). -/
theorem C8_replay_determinism {T : Type} [Inhabited T] (buf : Buffer T)
    (K : Nat) (hwf : BufWF T buf) (hK : K ≤ buf.capacity)
    (hseq : ∀ i, i < K → (buf.slotAt T i).state = SlotState.Sequenced ∧
      (buf.slotAt T i).sequence = i)
    (hrest : ∀ i, K ≤ i → i < buf.capacity →
      (buf.slotAt T i).state ≠ SlotState.Sequenced) :
    (∀ fuel, K < fuel →
      consumeRun T buf Consumer.new fuel =
        (List.range K).map (eventOf T buf)) ∧
    (∀ fuel₁ fuel₂, K < fuel₁ → K < fuel₂ →
      consumeRun T buf Consumer.new fuel₁ =
        consumeRun T buf Consumer.new fuel₂) ∧
    (∀ fuel, K < fuel → (consumeRun T buf Consumer.new fuel).length = K) := by
  have hbase : ∀ fuel, K < fuel →
      consumeRun T buf Consumer.new fuel =
        (List.range K).map (eventOf T buf) := by
    intro fuel hfuel
    have h := consumeRun_eq buf K hwf hK hseq hrest fuel 0 (Nat.zero_le K)
      (by omega)
    rw [show (Consumer.new : Consumer) = { cursor := 0 } from rfl, h,
        Nat.sub_zero, List.range_eq_range']
  refine ⟨hbase, ?_, ?_⟩
  · intro fuel₁ fuel₂ h1 h2
    rw [hbase fuel₁ h1, hbase fuel₂ h2]
  · intro fuel hfuel
    rw [hbase fuel hfuel, List.length_map, List.length_range]

/-- Claim C8, witness: on the one-slot sequenced buffer, two fresh
consumers with different fuel both observe exactly the single record. -/
theorem C8_replay_determinism_witness :
    consumeRun Nat bufS Consumer.new 2 =
      (List.range 1).map (eventOf Nat bufS) ∧
    consumeRun Nat bufS Consumer.new 2 = consumeRun Nat bufS Consumer.new 5 ∧
    (consumeRun Nat bufS Consumer.new 2).length = 1 := by
  have hseq : ∀ i, i < 1 → (bufS.slotAt Nat i).state = SlotState.Sequenced ∧
      (bufS.slotAt Nat i).sequence = i := by
    intro i hi
    have h0 : i = 0 := by omega
    subst h0
    exact ⟨rfl, rfl⟩
  have hrest : ∀ i, 1 ≤ i → i < bufS.capacity →
      (bufS.slotAt Nat i).state ≠ SlotState.Sequenced := by
    intro i h1 h2
    have hcap : bufS.capacity = 1 := rfl
    omega
  refine ⟨?_, ?_, ?_⟩
  · exact (C8_replay_determinism bufS 1 ⟨rfl, rfl, 0, rfl⟩ (by decide)
      hseq hrest).1 2 (by decide)
  · exact (C8_replay_determinism bufS 1 ⟨rfl, rfl, 0, rfl⟩ (by decide)
      hseq hrest).2.1 2 5 (by decide) (by decide)
  · exact (C8_replay_determinism bufS 1 ⟨rfl, rfl, 0, rfl⟩ (by decide)
      hseq hrest).2.2 2 (by decide)

end Lftes
